import Mathlib

/-!
Verification of the lightbot schedule-change pipeline.

The definitions below are a shallow embedding of the repository's Python
sources: `src/utils.py` (interval algebra and hashing), `src/db.py`
(SQLite-backed state store, modelled as pure maps/lists), `src/scraper.py`
(the group-line canonicalization), and the change-detection / enqueue loop
of `src/main.py`.  Machine text is modelled as Lean `String` over `List
Char`; Python's character-level operations (`split`, `strip`) are embedded
as explicit `List Char` functions.  Timestamps compared by the rate limiter
are modelled as exact rationals (seconds).
-/

namespace Lightbot

/-! ## Character-level string helpers (models of Python str operations) -/

/-- Model of Python's `str.split(c)` for a single-character separator. -/
def splitChar (c : Char) : List Char → List (List Char)
  | [] => [[]]
  | x :: xs =>
    let r := splitChar c xs
    if x = c then [] :: r
    else
      match r with
      | [] => [[x]]
      | h :: t => (x :: h) :: t

/-- Whitespace test used by `str.strip()` (the characters that occur here). -/
def isPySpace (c : Char) : Bool := c = ' ' || c = '\t' || c = '\n' || c = '\r'

/-- Model of Python's `str.strip()`. -/
def trimChars (l : List Char) : List Char :=
  ((l.dropWhile isPySpace).reverse.dropWhile isPySpace).reverse

/-- Model of `int(s)` for the nonnegative decimal literals that occur in
time strings; `none` models a raised `ValueError`. -/
def digitsToNat? (l : List Char) : Option Nat :=
  if l = [] then none
  else if l.all Char.isDigit then
    some (l.foldl (fun a c => a * 10 + (c.toNat - 48)) 0)
  else none

/-! ## Interval algebra (`src/utils.py`) -/

/-- `time_to_minutes` on the character list of the time string:
`h, m = map(int, s.split(':'))`, with `24:00 -> 1440`. -/
def timeToMinutesChars (l : List Char) : Option Nat :=
  match (splitChar ':' l).map digitsToNat? with
  | [some h, some m] => some (if h = 24 ∧ m = 0 then 1440 else h * 60 + m)
  | _ => none

/-- `utils.time_to_minutes`; `none` models the exception path. -/
def time_to_minutes (time_str : String) : Option Nat :=
  timeToMinutesChars time_str.data

/-- Two-digit zero-padded rendering, the model of `f"{n:02d}"`.  Both call
sites in `minutes_to_time` pass `n < 100` (`h < 24`, `m < 60`), where the
f-string prints exactly two digits. -/
def pad2 (n : Nat) : String :=
  String.mk [Char.ofNat (48 + n / 10 % 10), Char.ofNat (48 + n % 10)]

/-- `utils.minutes_to_time`: minutes back to `"HH:MM"`, `1440 -> "24:00"`. -/
def minutes_to_time (minutes : Nat) : String :=
  if minutes ≥ 1440 then "24:00"
  else pad2 (minutes / 60) ++ ":" ++ pad2 (minutes % 60)

/-- The per-string parsing step inside `utils.normalize_intervals`: strip,
skip empties, pick `'–'` if present else `'-'`, `split(sep, 1)`, parse both
sides with `time_to_minutes`; `none` models `continue` on failure. -/
def parseIntervalString (interval : String) : Option (Nat × Nat) :=
  let cs := trimChars interval.data
  if cs = [] then none
  else if cs.contains '–' || cs.contains '-' then
    let sep := if cs.contains '–' then '–' else '-'
    match splitChar sep cs with
    | a :: b :: rest =>
      match timeToMinutesChars (trimChars a),
            timeToMinutesChars (trimChars (List.intercalate [sep] (b :: rest))) with
      | some s, some e => some (s, e)
      | _, _ => none
    | _ => none
  else none

/-- All parsed `(start, end)` pairs of a raw string list (parse failures
are skipped, as in the `try/except: continue` of the source). -/
def parseIntervals (intervals : List String) : List (Nat × Nat) :=
  intervals.filterMap parseIntervalString

/-- The sort key order of `sorted(intervals, key=lambda x: x[0])`. -/
def startLE (a b : Nat × Nat) : Prop := a.1 ≤ b.1

instance : DecidableRel startLE := fun a b => Nat.decLe a.1 b.1

instance : IsTotal (Nat × Nat) startLE := ⟨fun a b => Nat.le_total a.1 b.1⟩

instance : IsTrans (Nat × Nat) startLE := ⟨fun _ _ _ => Nat.le_trans⟩

/-- `sorted(intervals, key=lambda x: x[0])`: a stable sort by start
(insertion sort is stable, like Python's `sorted`, so it yields the same
list). -/
def sortByStart (l : List (Nat × Nat)) : List (Nat × Nat) :=
  List.insertionSort startLE l

/-- One step of the merging fold of `utils.merge_intervals`.  The
accumulator is kept reversed, so its head is Python's `merged[-1]`. -/
def mergeStep (merged : List (Nat × Nat)) (iv : Nat × Nat) : List (Nat × Nat) :=
  match merged with
  | [] => [iv]
  | last :: rest =>
    if iv.1 ≤ last.2 then (last.1, max last.2 iv.2) :: rest
    else iv :: last :: rest

/-- `utils.merge_intervals`: sort by start, fold overlapping/adjacent
pairs (`merged[-1][1] >= start`) into one. -/
def merge_intervals (intervals : List (Nat × Nat)) : List (Nat × Nat) :=
  ((sortByStart intervals).foldl mergeStep []).reverse

/-- The complement loop of `utils.invert_intervals` (`current` pointer). -/
def invertGo : Nat → List (Nat × Nat) → List (Nat × Nat)
  | current, [] => if current < 1440 then [(current, 1440)] else []
  | current, (s, e) :: rest =>
    if current < s then (current, s) :: invertGo (max current e) rest
    else invertGo (max current e) rest

/-- `utils.invert_intervals`: ON intervals as the complement of the merged
OFF intervals over `[0, 1440)`; empty input yields the whole day. -/
def invert_intervals (off_intervals : List (Nat × Nat)) : List (Nat × Nat) :=
  match off_intervals with
  | [] => [(0, 1440)]
  | _ => invertGo 0 (merge_intervals off_intervals)

/-- `utils.intervals_to_strings`: render each pair as `"HH:MM–HH:MM"`. -/
def intervals_to_strings (intervals : List (Nat × Nat)) : List String :=
  intervals.map (fun p => minutes_to_time p.1 ++ "–" ++ minutes_to_time p.2)

/-- `utils.normalize_intervals`: parse, merge, re-render (empty parse
result short-circuits to `[]`). -/
def normalize_intervals (intervals : List String) : List String :=
  let parsed := parseIntervals intervals
  match parsed with
  | [] => []
  | _ => intervals_to_strings (merge_intervals parsed)

/-- `','.join(l)`. -/
def joinComma : List String → String
  | [] => ""
  | [s] => s
  | s :: rest => s ++ "," ++ joinComma rest

/-- The canonical digest preimage built by `utils.compute_group_hash` from
the already-normalized lists:
`f"{date}|OFF:{..};ON:{..};MAYBE:{..}"`. -/
def canonical_string (schedule_date : String)
    (off_sorted on_sorted maybe_sorted : List String) : String :=
  schedule_date ++ "|OFF:" ++ joinComma off_sorted ++ ";ON:" ++ joinComma on_sorted
    ++ ";MAYBE:" ++ joinComma maybe_sorted

/-! ## SHA-256 (the `hashlib.sha256(..).hexdigest()` call), over `Nat` -/

/-- Truncation to a 32-bit word. -/
def w32 (x : Nat) : Nat := x % 4294967296

/-- 32-bit right rotation. -/
def rotr32 (n x : Nat) : Nat := w32 ((x >>> n) ||| (x <<< (32 - n)))

/-- UTF-8 encoding of one character (the `.encode('utf-8')` step). -/
def utf8EncodeChar (c : Char) : List Nat :=
  let n := c.toNat
  if n < 128 then [n]
  else if n < 2048 then [192 ||| (n >>> 6), 128 ||| (n &&& 63)]
  else if n < 65536 then
    [224 ||| (n >>> 12), 128 ||| ((n >>> 6) &&& 63), 128 ||| (n &&& 63)]
  else
    [240 ||| (n >>> 18), 128 ||| ((n >>> 12) &&& 63),
     128 ||| ((n >>> 6) &&& 63), 128 ||| (n &&& 63)]

/-- UTF-8 bytes of a string. -/
def strBytes (s : String) : List Nat := (s.data.map utf8EncodeChar).flatten

/-- SHA-256 round constants. -/
def sha256K : List Nat :=
  [1116352408, 1899447441, 3049323471, 3921009573, 961987163,
   1508970993, 2453635748, 2870763221, 3624381080, 310598401,
   607225278, 1426881987, 1925078388, 2162078206, 2614888103,
   3248222580, 3835390401, 4022224774, 264347078, 604807628,
   770255983, 1249150122, 1555081692, 1996064986, 2554220882,
   2821834349, 2952996808, 3210313671, 3336571891, 3584528711,
   113926993, 338241895, 666307205, 773529912, 1294757372,
   1396182291, 1695183700, 1986661051, 2177026350, 2456956037,
   2730485921, 2820302411, 3259730800, 3345764771, 3516065817,
   3600352804, 4094571909, 275423344, 430227734, 506948616,
   659060556, 883997877, 958139571, 1322822218, 1537002063,
   1747873779, 1955562222, 2024104815, 2227730452, 2361852424,
   2428436474, 2756734187, 3204031479, 3329325298]

/-- SHA-256 initial hash value. -/
def sha256H0 : List Nat :=
  [1779033703, 3144134277, 1013904242, 2773480762, 1359893119,
   2600822924, 528734635, 1541459225]

/-- FIPS 180-4 padding: `0x80`, zeros to 56 mod 64, 8-byte big-endian bit
length. -/
def sha256Pad (msg : List Nat) : List Nat :=
  let L := msg.length
  let k := (119 - L % 64) % 64
  msg ++ [128] ++ List.replicate k 0
    ++ (List.range 8).map (fun i => ((8 * L) >>> (8 * (7 - i))) &&& 255)

/-- The 16 big-endian message words of one 64-byte block. -/
def blockWords (block : List Nat) : List Nat :=
  (List.range 16).map fun i =>
    (block.getD (4 * i) 0) <<< 24 ||| (block.getD (4 * i + 1) 0) <<< 16
      ||| (block.getD (4 * i + 2) 0) <<< 8 ||| block.getD (4 * i + 3) 0

/-- Message-schedule extension to 64 words. -/
def sha256Extend (w : List Nat) : List Nat :=
  (List.range 48).foldl
    (fun acc _ =>
      let t := acc.length
      let s0 :=
        rotr32 7 (acc.getD (t - 15) 0) ^^^ rotr32 18 (acc.getD (t - 15) 0)
          ^^^ (acc.getD (t - 15) 0) >>> 3
      let s1 :=
        rotr32 17 (acc.getD (t - 2) 0) ^^^ rotr32 19 (acc.getD (t - 2) 0)
          ^^^ (acc.getD (t - 2) 0) >>> 10
      acc ++ [w32 (acc.getD (t - 16) 0 + s0 + acc.getD (t - 7) 0 + s1)])
    w

/-- One compression round over the state `[a,b,c,d,e,f,g,h]`. -/
def sha256Round (wt kt : Nat) (st : List Nat) : List Nat :=
  match st with
  | [a, b, c, d, e, f, g, h] =>
    let S1 := rotr32 6 e ^^^ rotr32 11 e ^^^ rotr32 25 e
    let ch := (e &&& f) ^^^ ((e ^^^ 4294967295) &&& g)
    let temp1 := w32 (h + S1 + ch + kt + wt)
    let S0 := rotr32 2 a ^^^ rotr32 13 a ^^^ rotr32 22 a
    let maj := (a &&& b) ^^^ (a &&& c) ^^^ (b &&& c)
    let temp2 := w32 (S0 + maj)
    [w32 (temp1 + temp2), a, b, c, w32 (d + temp1), e, f, g]
  | _ => st

/-- Compression of one 64-byte block into the running hash. -/
def sha256Compress (h : List Nat) (block : List Nat) : List Nat :=
  let w := sha256Extend (blockWords block)
  let fin := (List.range 64).foldl
    (fun st t => sha256Round (w.getD t 0) (sha256K.getD t 0) st) h
  (h.zip fin).map fun p => w32 (p.1 + p.2)

/-- SHA-256 digest of a byte sequence, as eight 32-bit words. -/
def sha256Words (msg : List Nat) : List Nat :=
  let padded := sha256Pad msg
  let blocks := (List.range (padded.length / 64)).map
    fun i => (padded.drop (64 * i)).take 64
  blocks.foldl sha256Compress sha256H0

/-- Lowercase hex character of a nibble. -/
def hexChar (n : Nat) : Char := Char.ofNat (if n < 10 then 48 + n else 87 + n)

/-- Lowercase hex rendering of one 32-bit word. -/
def word2hex (x : Nat) : List Char :=
  (List.range 8).map fun i => hexChar ((x >>> (4 * (7 - i))) &&& 15)

/-- `hashlib.sha256(s.encode('utf-8')).hexdigest()`. -/
def sha256Hex (s : String) : String :=
  String.mk (((sha256Words (strBytes s)).map word2hex).flatten)

/-- The digest preimage of `utils.compute_group_hash`: the canonical
string over the three normalized lists. -/
def hash_input (schedule_date : String)
    (off_intervals on_intervals maybe_intervals : List String) : String :=
  canonical_string schedule_date
    (normalize_intervals off_intervals)
    (normalize_intervals on_intervals)
    (normalize_intervals maybe_intervals)

/-- `utils.compute_group_hash`: normalize the three lists, build the
canonical string, digest it. -/
def compute_group_hash (schedule_date : String)
    (off_intervals on_intervals maybe_intervals : List String) : String :=
  sha256Hex (hash_input schedule_date off_intervals on_intervals maybe_intervals)

/-! ## Predicates for the interval-algebra properties -/

/-- The point `x` lies in one of the half-open intervals of `l`. -/
def covers (l : List (Nat × Nat)) (x : Nat) : Prop :=
  ∃ p ∈ l, p.1 ≤ x ∧ x < p.2

instance (l : List (Nat × Nat)) (x : Nat) : Decidable (covers l x) := by
  unfold covers; infer_instance

/-- Canonical-order relation between intervals: a strict gap
(`end < next start`) together with start order. -/
def ivOrd (a b : Nat × Nat) : Prop := a.2 < b.1 ∧ a.1 ≤ b.1

instance : IsTrans (Nat × Nat) ivOrd :=
  ⟨fun _ _ _ hab hbc => ⟨lt_of_lt_of_le hab.1 hbc.2, le_trans hab.2 hbc.2⟩⟩

/-! ## State store (`src/db.py`)

SQLite tables are modelled as pure values: `group_state` as a map from the
primary key `group_code` to the row, `users` as a row list.  The
`updated_at` / `now` timestamp written by the source's
`datetime.now(timezone.utc).isoformat()` is passed in explicitly. -/

/-- One row of the `group_state` table (without its primary key). -/
structure GroupState where
  schedule_date : String
  hash : String
  data_json : String
  updated_at : String
deriving DecidableEq, Repr

/-- A `group_state`-shaped table keyed by `group_code`. -/
def StateTable : Type := String → Option GroupState

/-- `db.get_group_state`: `SELECT * FROM group_state WHERE group_code = ?`. -/
def get_group_state (table : StateTable) (group_code : String) : Option GroupState :=
  table group_code

/-- `db.save_group_state`: upsert on `group_code`
(`INSERT .. ON CONFLICT(group_code) DO UPDATE SET ..`). -/
def save_group_state (table : StateTable) (group_code schedule_date hash_value data_json now : String) :
    StateTable :=
  fun g => if g = group_code then some ⟨schedule_date, hash_value, data_json, now⟩ else table g

/-- The two schedule-state tables of the store: `group_state` for the
today slot and `group_state_tomorrow` for the tomorrow slot.

Modelled from the spec: `db.get_group_state_tomorrow` and
`db.save_group_state_tomorrow` are called from `src/main.py` but their
definitions are not in `src/db.py` as given; per spec §3/§4.3 (one row per
`(group_code, slot)`, `getState`/`saveState` upsert) and the
`group_state_tomorrow` table named in `src/scraper.py`, the tomorrow slot
is the same select/upsert on a separate table. -/
structure DB where
  group_state : StateTable
  group_state_tomorrow : StateTable

/-- The two schedule slots. -/
inductive Slot
  | today
  | tomorrow
deriving DecidableEq, Repr

/-- Modelled from the spec: `db.get_group_state_tomorrow`, the tomorrow
analogue of `get_group_state`. -/
def get_group_state_tomorrow (db : DB) (group_code : String) : Option GroupState :=
  db.group_state_tomorrow group_code

/-- Modelled from the spec: `db.save_group_state_tomorrow`, the tomorrow
analogue of `save_group_state`. -/
def save_group_state_tomorrow (db : DB) (group_code schedule_date hash_value data_json now : String) :
    DB :=
  ⟨db.group_state, save_group_state db.group_state_tomorrow group_code schedule_date hash_value data_json now⟩

/-- Spec §4.3 `getState(group, slot)`: dispatch to the slot's table. -/
def getState (db : DB) (slot : Slot) (group : String) : Option GroupState :=
  match slot with
  | .today => get_group_state db.group_state group
  | .tomorrow => get_group_state_tomorrow db group

/-- Spec §4.3 `saveState(group, slot, date, hash, data)`: upsert into the
slot's table. -/
def saveState (db : DB) (slot : Slot) (group schedule_date hash_value data_json now : String) : DB :=
  match slot with
  | .today => ⟨save_group_state db.group_state group schedule_date hash_value data_json now,
               db.group_state_tomorrow⟩
  | .tomorrow => save_group_state_tomorrow db group schedule_date hash_value data_json now

/-- One row of the `users` table.  `last_sent_at` is stored by the source
as an ISO timestamp string; it is modelled as exact seconds (`ℚ`) since
the comparisons in `can_send_message` happen on `total_seconds()`. -/
structure User where
  tg_user_id : Int
  tg_chat_id : Int
  group_code : Option String
  is_subscribed : Bool
  last_sent_at : Option ℚ
deriving DecidableEq, Repr

/-- `db.create_or_update_user`: insert with `is_subscribed = 1`,
`last_sent_at = NULL`, or on conflict update only `tg_chat_id` and
`group_code` (the `excluded` values). -/
def create_or_update_user (users : List User) (tg_user_id tg_chat_id : Int)
    (group_code : Option String) : List User :=
  if users.any (fun u => decide (u.tg_user_id = tg_user_id)) then
    users.map fun u =>
      if u.tg_user_id = tg_user_id then
        ⟨u.tg_user_id, tg_chat_id, group_code, u.is_subscribed, u.last_sent_at⟩
      else u
  else
    users ++ [⟨tg_user_id, tg_chat_id, group_code, true, none⟩]

/-- The database effect of the `/start` handler (`bot.cmd_start`): it calls
`db.create_or_update_user(user_id, chat_id)` with the `group_code`
argument omitted, i.e. `NULL`. -/
def cmd_start_user_update (users : List User) (tg_user_id tg_chat_id : Int) : List User :=
  create_or_update_user users tg_user_id tg_chat_id none

/-- `db.update_last_sent_at`: set `last_sent_at` to the current time. -/
def update_last_sent_at (users : List User) (tg_user_id : Int) (now : ℚ) : List User :=
  users.map fun u =>
    if u.tg_user_id = tg_user_id then
      ⟨u.tg_user_id, u.tg_chat_id, u.group_code, u.is_subscribed, some now⟩
    else u

/-- `db.can_send_message`: allowed when the user row or its `last_sent_at`
is missing; on `max_per_minute = 0` the `ZeroDivisionError` is caught and
the function fails open; otherwise allowed iff
`now - last_sent >= 60 / max_per_minute` seconds. -/
def can_send_message (users : List User) (tg_user_id : Int) (max_per_minute : Nat) (now : ℚ) : Bool :=
  match users.find? (fun u => decide (u.tg_user_id = tg_user_id)) with
  | none => true
  | some u =>
    match u.last_sent_at with
    | none => true
    | some last_sent =>
      if max_per_minute = 0 then true
      else decide ((60 : ℚ) / (max_per_minute : ℚ) ≤ now - last_sent)

/-- `db.get_subscribed_users_for_group`:
`SELECT * FROM users WHERE group_code = ? AND is_subscribed = 1`
(a `NULL` `group_code` never equals the parameter). -/
def get_subscribed_users_for_group (users : List User) (group_code : String) : List User :=
  users.filter fun u => decide (u.group_code = some group_code) && u.is_subscribed

/-! ## Snapshot, jobs, and the detection loop (`src/main.py`, `src/scraper.py`) -/

/-- The `{"off": .., "on": .., "maybe": ..}` interval lists of one group in
a snapshot. -/
structure GroupData where
  off_intervals : List String
  on_intervals : List String
  maybe_intervals : List String
deriving DecidableEq, Repr

/-- One snapshot slot: `{"schedule_date": .., "groups": ..}` (the dict is
modelled as an association list in insertion order). -/
structure SlotSnapshot where
  schedule_date : String
  groups : List (String × GroupData)
deriving DecidableEq, Repr

/-- A fetched snapshot: `{"today": .. | None, "tomorrow": .. | None}`. -/
structure Snapshot where
  today : Option SlotSnapshot
  tomorrow : Option SlotSnapshot
deriving DecidableEq, Repr

/-- A notification job as placed on `notify_queue`.  The today jobs of the
source carry no `is_first_for_this_date` key and the worker reads it with
default `False`, so the field is simply `false` for them. -/
structure Job where
  kind : Slot
  group_code : String
  schedule_date : String
  on_intervals : List String
  off_intervals : List String
  maybe_intervals : List String
  is_first_for_this_date : Bool
deriving DecidableEq, Repr

/-- `json.dumps` of a list of the plain (quote- and backslash-free)
interval strings, with the default `", "` item separator. -/
def dumpStrList (l : List String) : String :=
  "[" ++ String.intercalate ", " (l.map fun s => "\"" ++ s ++ "\"") ++ "]"

/-- `json.dumps({"off": .., "on": .., "maybe": ..}, ensure_ascii=False)`
for the fixed dict shape built in the scrape loop. -/
def dumps_schedule (offL onL maybeL : List String) : String :=
  "\x7b\"off\": " ++ dumpStrList offL ++ ", \"on\": " ++ dumpStrList onL
    ++ ", \"maybe\": " ++ dumpStrList maybeL ++ "\x7d"

/-- The canonicalization `scraper.parse_groups_from_section_lines` applies
to one group line's extracted OFF minute pairs: merge the OFF intervals,
invert them for ON, render both, `maybe` empty. -/
def scrapeGroupData (off_intervals_minutes : List (Nat × Nat)) : GroupData :=
  let off_merged := merge_intervals off_intervals_minutes
  ⟨intervals_to_strings off_merged,
   intervals_to_strings (invert_intervals off_merged),
   []⟩

/-- The per-group body of the scrape loop (`main.scrape_loop_task`, both
slots): hash the incoming lists, compare with the stored state, and on a
change persist `(schedule_date, hash, data_json)` and emit the job.  For
the tomorrow slot `is_first_for_this_date` is
`(not old_state) or (old_state["schedule_date"] != schedule_date)`. -/
def detectGroup (slot : Slot) (table : StateTable) (schedule_date group_code : String)
    (intervals : GroupData) (now : String) : StateTable × Option Job :=
  let new_hash := compute_group_hash schedule_date intervals.off_intervals intervals.on_intervals intervals.maybe_intervals
  let mkJob : Bool → Job := fun first =>
    ⟨slot, group_code, schedule_date, intervals.on_intervals, intervals.off_intervals, intervals.maybe_intervals,
     match slot with | .today => false | .tomorrow => first⟩
  let data_json := dumps_schedule intervals.off_intervals intervals.on_intervals intervals.maybe_intervals
  match get_group_state table group_code with
  | some old_state =>
    if old_state.hash = new_hash then (table, none)
    else
      (save_group_state table group_code schedule_date new_hash data_json now,
       some (mkJob (decide (old_state.schedule_date ≠ schedule_date))))
  | none =>
    (save_group_state table group_code schedule_date new_hash data_json now,
     some (mkJob true))

/-- The detection pass of one slot over all groups of the snapshot, in
iteration order, collecting the `changed` jobs. -/
def detectPhase (slot : Slot) (table : StateTable) (schedule_date : String)
    (now : String) : List (String × GroupData) → StateTable × List Job
  | [] => (table, [])
  | (g, data) :: rest =>
    let r := detectGroup slot table schedule_date g data now
    let r2 := detectPhase slot r.1 schedule_date now rest
    (r2.1, r.2.toList ++ r2.2)

/-- The log line of the queue-full branch
(`"notification_queue_full: dropping today job"` resp. `tomorrow`). -/
def dropLogMessage (slot : Slot) : String :=
  "notification_queue_full: dropping "
    ++ (match slot with | .today => "today" | .tomorrow => "tomorrow") ++ " job"

/-- The enqueue pass over one slot's `changed` jobs
(`main.scrape_loop_task`): for each job, if `notify_queue.full()` then log
once and `break` (the incoming job and all remaining jobs of the cycle are
dropped), else `put_nowait`. -/
def enqueueJobs (cap : Nat) (slot : Slot) : List Job → List Job → List Job × List String
  | queue, [] => (queue, [])
  | queue, j :: rest =>
    if cap ≤ queue.length then (queue, [dropLogMessage slot])
    else enqueueJobs cap slot (queue ++ [j]) rest

/-- One iteration of `main.scrape_loop_task` after a successful fetch:
today detection then today enqueues, tomorrow detection then tomorrow
enqueues.  Returns the store, the queue, and the emitted warning logs. -/
def runCycle (cap : Nat) (db : DB) (queue : List Job) (snap : Snapshot) (now : String) :
    DB × List Job × List String :=
  let rT := match snap.today with
    | none => (db.group_state, ([] : List Job))
    | some s => detectPhase .today db.group_state s.schedule_date now s.groups
  let qT := enqueueJobs cap .today queue rT.2
  let rM := match snap.tomorrow with
    | none => (db.group_state_tomorrow, ([] : List Job))
    | some s => detectPhase .tomorrow db.group_state_tomorrow s.schedule_date now s.groups
  let qM := enqueueJobs cap .tomorrow qT.1 rM.2
  (⟨rT.1, rM.1⟩, qM.1, qT.2 ++ qM.2)

/-- The empty state store (fresh `init_db`). -/
def emptyDB : DB := ⟨fun _ => none, fun _ => none⟩

/-- The C2 scenario, first fetch: group `"1.1"` with raw today
off-intervals `10:00–12:00` and `12:00–14:00` (600–720 and 720–840
minutes), canonicalized by the scraper. -/
def c2Snap1 : Snapshot :=
  ⟨some ⟨"01.01.2025", [("1.1", scrapeGroupData [(600, 720), (720, 840)])]⟩, none⟩

/-- The C2 scenario, second fetch: the already-merged off input
`10:00–14:00`. -/
def c2Snap2 : Snapshot :=
  ⟨some ⟨"01.01.2025", [("1.1", scrapeGroupData [(600, 840)])]⟩, none⟩

/-- The first C2 cycle, run on an empty store and empty queue. -/
def c2Run1 : DB × List Job × List String := runCycle 500 emptyDB [] c2Snap1 "t1"

/-- The single job the first C2 cycle must enqueue. -/
def c2Job : Job :=
  ⟨.today, "1.1", "01.01.2025", ["00:00–10:00", "14:00–24:00"], ["10:00–14:00"], [], false⟩

/-! ## Lemmas about the merging fold -/

theorem covers_nil (x : Nat) : ¬ covers [] x := by
  simp [covers]

theorem covers_cons {a : Nat × Nat} {t : List (Nat × Nat)} {x : Nat} :
    covers (a :: t) x ↔ (a.1 ≤ x ∧ x < a.2) ∨ covers t x := by
  constructor
  · rintro ⟨p, hp, h⟩
    rcases List.mem_cons.mp hp with h1 | h1
    · exact Or.inl (h1 ▸ h)
    · exact Or.inr ⟨p, h1, h⟩
  · rintro (h | ⟨p, hp, h⟩)
    · exact ⟨a, List.mem_cons_self a t, h⟩
    · exact ⟨p, List.mem_cons_of_mem a hp, h⟩

theorem covers_perm {l₁ l₂ : List (Nat × Nat)} (h : l₁.Perm l₂) (x : Nat) :
    covers l₁ x ↔ covers l₂ x := by
  unfold covers
  constructor <;> rintro ⟨p, hp, hx⟩
  · exact ⟨p, h.mem_iff.mp hp, hx⟩
  · exact ⟨p, h.mem_iff.mpr hp, hx⟩

theorem covers_reverse (l : List (Nat × Nat)) (x : Nat) :
    covers l.reverse x ↔ covers l x :=
  covers_perm (List.reverse_perm l) x

theorem chain_mergeStep {acc : List (Nat × Nat)} {iv : Nat × Nat}
    (hacc : List.Chain' (fun a b => ivOrd b a) acc)
    (hstart : ∀ a ∈ acc, a.1 ≤ iv.1) :
    List.Chain' (fun a b => ivOrd b a) (mergeStep acc iv) := by
  cases acc with
  | nil => simp [mergeStep]
  | cons last t =>
    by_cases hcond : iv.1 ≤ last.2
    · simp only [mergeStep, if_pos hcond]
      cases t with
      | nil => simp
      | cons y t2 =>
        have h1 := List.chain'_cons.mp hacc
        exact List.chain'_cons.mpr ⟨h1.1, h1.2⟩
    · simp only [mergeStep, if_neg hcond]
      refine List.chain'_cons.mpr ⟨⟨Nat.lt_of_not_le hcond, hstart last (List.mem_cons_self _ _)⟩, hacc⟩

theorem mergeStep_starts {acc : List (Nat × Nat)} {iv : Nat × Nat} :
    ∀ a ∈ mergeStep acc iv, (∃ b ∈ acc, a.1 = b.1) ∨ a = iv := by
  cases acc with
  | nil =>
    intro a ha
    simp only [mergeStep, List.mem_singleton] at ha
    exact Or.inr ha
  | cons last t =>
    intro a ha
    by_cases hcond : iv.1 ≤ last.2
    · simp only [mergeStep, if_pos hcond, List.mem_cons] at ha
      rcases ha with rfl | ha
      · exact Or.inl ⟨last, List.mem_cons_self _ _, rfl⟩
      · exact Or.inl ⟨a, List.mem_cons_of_mem _ ha, rfl⟩
    · simp only [mergeStep, if_neg hcond, List.mem_cons] at ha
      rcases ha with rfl | rfl | ha
      · exact Or.inr rfl
      · exact Or.inl ⟨a, List.mem_cons_self _ _, rfl⟩
      · exact Or.inl ⟨a, List.mem_cons_of_mem _ ha, rfl⟩

theorem covers_mergeStep {acc : List (Nat × Nat)} {iv : Nat × Nat}
    (hstart : ∀ a ∈ acc, a.1 ≤ iv.1) (x : Nat) :
    covers (mergeStep acc iv) x ↔ covers acc x ∨ (iv.1 ≤ x ∧ x < iv.2) := by
  cases acc with
  | nil =>
    simp only [mergeStep, covers_cons]
    have := covers_nil x
    tauto
  | cons last t =>
    have hl : last.1 ≤ iv.1 := hstart last (List.mem_cons_self _ _)
    by_cases hcond : iv.1 ≤ last.2
    · simp only [mergeStep, if_pos hcond, covers_cons]
      constructor
      · rintro (⟨h1, h2⟩ | h)
        · by_cases hc : x < last.2
          · exact Or.inl (Or.inl ⟨h1, hc⟩)
          · rcases lt_max_iff.mp h2 with h3 | h3
            · exact absurd h3 hc
            · exact Or.inr ⟨le_trans hcond (le_of_not_lt hc), h3⟩
        · exact Or.inl (Or.inr h)
      · rintro ((⟨h1, h2⟩ | h) | ⟨h1, h2⟩)
        · exact Or.inl ⟨h1, lt_of_lt_of_le h2 (le_max_left _ _)⟩
        · exact Or.inr h
        · exact Or.inl ⟨le_trans hl h1, lt_of_lt_of_le h2 (le_max_right _ _)⟩
    · simp only [mergeStep, if_neg hcond, covers_cons]
      tauto

theorem foldl_mergeStep_spec :
    ∀ (rest acc : List (Nat × Nat)),
      List.Chain' (fun a b => ivOrd b a) acc →
      List.Pairwise startLE rest →
      (∀ r ∈ rest, ∀ a ∈ acc, a.1 ≤ r.1) →
      List.Chain' (fun a b => ivOrd b a) (rest.foldl mergeStep acc) ∧
        (∀ x, covers (rest.foldl mergeStep acc) x ↔ (covers acc x ∨ covers rest x))
  | [], acc, hacc, _, _ => by
    refine ⟨hacc, fun x => ?_⟩
    have := covers_nil x
    simp only [List.foldl_nil]
    tauto
  | r :: rs, acc, hacc, hrest, hcross => by
    have hstart : ∀ a ∈ acc, a.1 ≤ r.1 := fun a ha => hcross r (List.mem_cons_self _ _) a ha
    have hacc' := chain_mergeStep hacc hstart
    have hpair := List.pairwise_cons.mp hrest
    have hcross' : ∀ r' ∈ rs, ∀ a ∈ mergeStep acc r, a.1 ≤ r'.1 := by
      intro r' hr' a ha
      rcases mergeStep_starts a ha with ⟨b, hb, he⟩ | rfl
      · exact he ▸ le_trans (hstart b hb) (hpair.1 r' hr')
      · exact hpair.1 r' hr'
    have IH := foldl_mergeStep_spec rs (mergeStep acc r) hacc' hpair.2 hcross'
    refine ⟨IH.1, fun x => ?_⟩
    rw [List.foldl_cons, IH.2 x, covers_mergeStep hstart x, covers_cons]
    tauto

theorem sortByStart_pairwise (l : List (Nat × Nat)) :
    List.Pairwise startLE (sortByStart l) :=
  List.sorted_insertionSort startLE l

theorem sortByStart_perm (l : List (Nat × Nat)) : (sortByStart l).Perm l :=
  List.perm_insertionSort startLE l

theorem merge_intervals_chain' (l : List (Nat × Nat)) :
    List.Chain' ivOrd (merge_intervals l) := by
  unfold merge_intervals
  rw [List.chain'_reverse]
  exact (foldl_mergeStep_spec (sortByStart l) [] List.chain'_nil
    (sortByStart_pairwise l) (fun r _ a ha => absurd ha (List.not_mem_nil a))).1

theorem merge_intervals_pairwise (l : List (Nat × Nat)) :
    List.Pairwise ivOrd (merge_intervals l) :=
  List.chain'_iff_pairwise.mp (merge_intervals_chain' l)

theorem merge_intervals_covers (l : List (Nat × Nat)) (x : Nat) :
    covers (merge_intervals l) x ↔ covers l x := by
  unfold merge_intervals
  rw [covers_reverse,
    (foldl_mergeStep_spec (sortByStart l) [] List.chain'_nil
      (sortByStart_pairwise l) (fun r _ a ha => absurd ha (List.not_mem_nil a))).2 x]
  have h1 := covers_nil x
  have h2 := covers_perm (sortByStart_perm l) x
  tauto

theorem mergeStep_pred {P : Nat × Nat → Prop}
    (hP : ∀ a b : Nat × Nat, P a → P b → P (a.1, max a.2 b.2))
    {acc : List (Nat × Nat)} {iv : Nat × Nat}
    (hacc : ∀ p ∈ acc, P p) (hiv : P iv) : ∀ p ∈ mergeStep acc iv, P p := by
  cases acc with
  | nil =>
    intro p hp
    simp only [mergeStep, List.mem_singleton] at hp
    exact hp ▸ hiv
  | cons last t =>
    intro p hp
    by_cases hcond : iv.1 ≤ last.2
    · simp only [mergeStep, if_pos hcond, List.mem_cons] at hp
      rcases hp with rfl | hp
      · exact hP last iv (hacc last (List.mem_cons_self _ _)) hiv
      · exact hacc p (List.mem_cons_of_mem _ hp)
    · simp only [mergeStep, if_neg hcond, List.mem_cons] at hp
      rcases hp with rfl | rfl | hp
      · exact hiv
      · exact hacc p (List.mem_cons_self _ _)
      · exact hacc p (List.mem_cons_of_mem _ hp)

theorem foldl_mergeStep_pred {P : Nat × Nat → Prop}
    (hP : ∀ a b : Nat × Nat, P a → P b → P (a.1, max a.2 b.2)) :
    ∀ (rest acc : List (Nat × Nat)), (∀ p ∈ acc, P p) → (∀ p ∈ rest, P p) →
      ∀ p ∈ rest.foldl mergeStep acc, P p
  | [], _, hacc, _ => hacc
  | r :: rs, acc, hacc, hrest => by
    refine foldl_mergeStep_pred hP rs (mergeStep acc r)
      (mergeStep_pred hP hacc (hrest r (List.mem_cons_self _ _)))
      (fun p hp => hrest p (List.mem_cons_of_mem _ hp))

theorem merge_intervals_pred {P : Nat × Nat → Prop}
    (hP : ∀ a b : Nat × Nat, P a → P b → P (a.1, max a.2 b.2))
    {l : List (Nat × Nat)} (h : ∀ p ∈ l, P p) : ∀ p ∈ merge_intervals l, P p := by
  intro p hp
  unfold merge_intervals at hp
  rw [List.mem_reverse] at hp
  exact foldl_mergeStep_pred hP (sortByStart l) [] (fun q hq => absurd hq (List.not_mem_nil q))
    (fun q hq => h q ((sortByStart_perm l).mem_iff.mp hq)) p hp

theorem merge_intervals_proper {l : List (Nat × Nat)} (h : ∀ p ∈ l, p.1 < p.2) :
    ∀ p ∈ merge_intervals l, p.1 < p.2 :=
  @merge_intervals_pred (fun p => p.1 < p.2)
    (fun _ _ ha _ => lt_of_lt_of_le ha (le_max_left _ _)) l h

theorem merge_intervals_bounded {l : List (Nat × Nat)} (h : ∀ p ∈ l, p.2 ≤ 1440) :
    ∀ p ∈ merge_intervals l, p.2 ≤ 1440 :=
  @merge_intervals_pred (fun p => p.2 ≤ 1440)
    (fun _ _ ha hb => max_le ha hb) l h

/-- A canonical list (pairwise gapped, proper intervals) is determined by
the set of points it covers. -/
theorem canonical_unique :
    ∀ (l₁ l₂ : List (Nat × Nat)), List.Pairwise ivOrd l₁ → List.Pairwise ivOrd l₂ →
      (∀ p ∈ l₁, p.1 < p.2) → (∀ p ∈ l₂, p.1 < p.2) →
      (∀ x, covers l₁ x ↔ covers l₂ x) → l₁ = l₂
  | [], [], _, _, _, _, _ => rfl
  | [], b :: t₂, _, _, _, hp₂, hiff => by
    exact absurd ((hiff b.1).mpr ⟨b, List.mem_cons_self _ _, le_refl _, hp₂ b (List.mem_cons_self _ _)⟩)
      (covers_nil b.1)
  | a :: t₁, [], _, _, hp₁, _, hiff => by
    exact absurd ((hiff a.1).mp ⟨a, List.mem_cons_self _ _, le_refl _, hp₁ a (List.mem_cons_self _ _)⟩)
      (covers_nil a.1)
  | a :: t₁, b :: t₂, h₁, h₂, hp₁, hp₂, hiff => by
    have hpa := List.pairwise_cons.mp h₁
    have hpb := List.pairwise_cons.mp h₂
    have ha_proper : a.1 < a.2 := hp₁ a (List.mem_cons_self _ _)
    have hb_proper : b.1 < b.2 := hp₂ b (List.mem_cons_self _ _)
    have h1 : b.1 ≤ a.1 := by
      rcases covers_cons.mp ((hiff a.1).mp ⟨a, List.mem_cons_self _ _, le_refl _, ha_proper⟩) with
        ⟨hh, _⟩ | ⟨p, hp, hx⟩
      · exact hh
      · exact le_trans (le_of_lt (lt_trans hb_proper (hpb.1 p hp).1)) hx.1
    have h2 : a.1 ≤ b.1 := by
      rcases covers_cons.mp ((hiff b.1).mpr ⟨b, List.mem_cons_self _ _, le_refl _, hb_proper⟩) with
        ⟨hh, _⟩ | ⟨p, hp, hx⟩
      · exact hh
      · exact le_trans (le_of_lt (lt_trans ha_proper (hpa.1 p hp).1)) hx.1
    have heq1 : a.1 = b.1 := le_antisymm h2 h1
    have h3 : ¬ a.2 < b.2 := by
      intro hlt
      rcases covers_cons.mp ((hiff a.2).mpr
          ⟨b, List.mem_cons_self _ _, heq1 ▸ le_of_lt ha_proper, hlt⟩) with
        ⟨_, hh⟩ | ⟨p, hp, hx⟩
      · exact lt_irrefl _ hh
      · exact absurd hx.1 (not_le.mpr (hpa.1 p hp).1)
    have h4 : ¬ b.2 < a.2 := by
      intro hlt
      rcases covers_cons.mp ((hiff b.2).mp
          ⟨a, List.mem_cons_self _ _, heq1 ▸ le_of_lt hb_proper, hlt⟩) with
        ⟨_, hh⟩ | ⟨p, hp, hx⟩
      · exact lt_irrefl _ hh
      · exact absurd hx.1 (not_le.mpr (hpb.1 p hp).1)
    have heq2 : a.2 = b.2 := le_antisymm (not_lt.mp h4) (not_lt.mp h3)
    have htail : ∀ x, covers t₁ x ↔ covers t₂ x := by
      intro x
      constructor
      · intro hx
        obtain ⟨p, hp, hx1, hx2⟩ := hx
        rcases covers_cons.mp ((hiff x).mp (covers_cons.mpr (Or.inr ⟨p, hp, hx1, hx2⟩))) with
          ⟨_, hh2⟩ | h
        · exact absurd hh2 (not_lt.mpr (heq2 ▸ le_trans (le_of_lt (hpa.1 p hp).1) hx1))
        · exact h
      · intro hx
        obtain ⟨p, hp, hx1, hx2⟩ := hx
        rcases covers_cons.mp ((hiff x).mpr (covers_cons.mpr (Or.inr ⟨p, hp, hx1, hx2⟩))) with
          ⟨_, hh2⟩ | h
        · exact absurd hh2 (not_lt.mpr (heq2 ▸ le_trans (le_of_lt (hpb.1 p hp).1) hx1))
        · exact h
    have hteq := canonical_unique t₁ t₂ hpa.2 hpb.2
      (fun p hp => hp₁ p (List.mem_cons_of_mem _ hp))
      (fun p hp => hp₂ p (List.mem_cons_of_mem _ hp)) htail
    rw [hteq, Prod.ext heq1 heq2]

/-- For inputs whose parsed intervals are proper, the merged canonical
form depends only on the multiset of intervals. -/
theorem merge_intervals_perm_eq {l₁ l₂ : List (Nat × Nat)} (hperm : l₁.Perm l₂)
    (hpr : ∀ p ∈ l₁, p.1 < p.2) : merge_intervals l₁ = merge_intervals l₂ := by
  have hpr₂ : ∀ p ∈ l₂, p.1 < p.2 := fun p hp => hpr p (hperm.mem_iff.mpr hp)
  refine canonical_unique _ _ (merge_intervals_pairwise l₁) (merge_intervals_pairwise l₂)
    (merge_intervals_proper hpr) (merge_intervals_proper hpr₂) (fun x => ?_)
  rw [merge_intervals_covers, merge_intervals_covers]
  exact covers_perm hperm x

/-! ## Lemmas about the complement loop -/

theorem invertGo_covers :
    ∀ (ms : List (Nat × Nat)) (current : Nat),
      List.Chain' ivOrd ms →
      (∀ p ∈ ms, p.1 < p.2) → (∀ p ∈ ms, p.2 ≤ 1440) →
      (∀ p, ms.head? = some p → current ≤ p.1) →
      ∀ x, covers (invertGo current ms) x ↔ (current ≤ x ∧ x < 1440 ∧ ¬ covers ms x)
  | [], current, _, _, _, _, x => by
    by_cases h : current < 1440
    · simp only [invertGo, if_pos h, covers_cons]
      have hnil := covers_nil x
      constructor
      · rintro (⟨h1, h2⟩ | hc)
        · exact ⟨h1, h2, hnil⟩
        · exact absurd hc hnil
      · rintro ⟨h1, h2, _⟩
        exact Or.inl ⟨h1, h2⟩
    · simp only [invertGo, if_neg h]
      constructor
      · intro hc
        exact absurd hc (covers_nil x)
      · rintro ⟨h1, h2, _⟩
        exact absurd (lt_of_le_of_lt h1 h2) h
  | (s, e) :: rest, current, hch, hpr, hbd, hcur, x => by
    have hcs : current ≤ s := hcur (s, e) rfl
    have hse : s < e := hpr (s, e) (List.mem_cons_self _ _)
    have he1440 : e ≤ 1440 := hbd (s, e) (List.mem_cons_self _ _)
    have hrest_pr : ∀ p ∈ rest, p.1 < p.2 := fun p hp => hpr p (List.mem_cons_of_mem _ hp)
    have hrest_bd : ∀ p ∈ rest, p.2 ≤ 1440 := fun p hp => hbd p (List.mem_cons_of_mem _ hp)
    have hch' : List.Chain' ivOrd rest := (List.chain'_cons'.mp hch).2
    have hgap : ∀ p ∈ rest, e < p.1 :=
      fun p hp => ((List.pairwise_cons.mp (List.chain'_iff_pairwise.mp hch)).1 p hp).1
    have hhead : ∀ p, rest.head? = some p → max current e ≤ p.1 := by
      intro p hp
      have hp_mem : p ∈ rest := by
        cases rest with
        | nil => exact absurd hp (by simp)
        | cons y t => exact (Option.some_inj.mp hp) ▸ List.mem_cons_self _ _
      have hegap := hgap p hp_mem
      exact max_le (le_of_lt (lt_of_le_of_lt hcs (lt_trans hse hegap))) (le_of_lt hegap)
    have hmax : max current e = e := max_eq_right (le_of_lt (lt_of_le_of_lt hcs hse))
    have IH := invertGo_covers rest (max current e) hch' hrest_pr hrest_bd hhead x
    rw [hmax] at IH
    by_cases hlt : current < s
    · simp only [invertGo, if_pos hlt, hmax, covers_cons, IH]
      constructor
      · rintro (⟨h1, h2⟩ | ⟨h1, h2, h3⟩)
        · refine ⟨h1, lt_of_lt_of_le (lt_trans h2 hse) he1440, ?_⟩
          rintro (⟨hs1, _⟩ | hcov)
          · exact absurd h2 (not_lt.mpr hs1)
          · obtain ⟨p, hp, hx1, _⟩ := hcov
            exact absurd hx1 (not_le.mpr (lt_trans (lt_trans h2 hse) (hgap p hp)))
        · refine ⟨le_trans (le_trans hcs (le_of_lt hse)) h1, h2, ?_⟩
          rintro (⟨_, hs2⟩ | hcov)
          · exact absurd hs2 (not_lt.mpr h1)
          · exact h3 hcov
      · rintro ⟨h1, h2, h3⟩
        rcases not_or.mp h3 with ⟨hns, hnr⟩
        by_cases hxs : x < s
        · exact Or.inl ⟨h1, hxs⟩
        · have hsx := le_of_not_lt hxs
          have hex : e ≤ x := le_of_not_lt (fun hxe => hns ⟨hsx, hxe⟩)
          exact Or.inr ⟨hex, h2, hnr⟩
    · have hcse : current = s := le_antisymm hcs (le_of_not_lt hlt)
      simp only [invertGo, if_neg hlt, hmax, covers_cons, IH]
      constructor
      · rintro ⟨h1, h2, h3⟩
        refine ⟨le_trans (le_of_lt (hcse ▸ hse)) h1, h2, ?_⟩
        rintro (⟨_, hx2⟩ | hcov)
        · exact absurd hx2 (not_lt.mpr h1)
        · exact h3 hcov
      · rintro ⟨h1, h2, h3⟩
        rcases not_or.mp h3 with ⟨hns, hnr⟩
        have hsx : s ≤ x := hcse ▸ h1
        have hex : e ≤ x := le_of_not_lt (fun hxe => hns ⟨hsx, hxe⟩)
        exact ⟨hex, h2, hnr⟩

/-- Characterization of `invert_intervals` for data-model intervals
(`0 ≤ start < end ≤ 1440`): it covers exactly the points of `[0, 1440)`
missed by the merged OFF list. -/
theorem invert_intervals_covers {off : List (Nat × Nat)}
    (hpr : ∀ p ∈ off, p.1 < p.2) (hbd : ∀ p ∈ off, p.2 ≤ 1440) (x : Nat) :
    covers (invert_intervals off) x ↔ (x < 1440 ∧ ¬ covers (merge_intervals off) x) := by
  cases off with
  | nil =>
    simp only [invert_intervals, covers_cons]
    have h1 := covers_nil x
    have h2 : merge_intervals [] = [] := rfl
    rw [h2]
    constructor
    · rintro (⟨_, hx⟩ | hc)
      · exact ⟨hx, h1⟩
      · exact absurd hc h1
    · rintro ⟨hx, _⟩
      exact Or.inl ⟨Nat.zero_le x, hx⟩
  | cons a t =>
    have h := invertGo_covers (merge_intervals (a :: t)) 0
      (merge_intervals_chain' (a :: t))
      (merge_intervals_proper hpr)
      (merge_intervals_bounded hbd)
      (fun _ _ => Nat.zero_le _) x
    simp only [invert_intervals]
    rw [h]
    constructor
    · rintro ⟨_, h2, h3⟩
      exact ⟨h2, h3⟩
    · rintro ⟨h2, h3⟩
      exact ⟨Nat.zero_le x, h2, h3⟩

/-! ## Claim C6 and C7 -/

/-- C6: for all interval lists given to `merge_intervals`, the output is
sorted by start, has a strict gap between consecutive entries
(`end[i] < start[i+1]`), and is pairwise disjoint as sets of points; the
empty input yields the empty output. -/
theorem merge_canonical_form (l : List (Nat × Nat)) :
    merge_intervals [] = ([] : List (Nat × Nat)) ∧
    List.Pairwise (fun a b : Nat × Nat => a.1 ≤ b.1) (merge_intervals l) ∧
    List.Chain' (fun a b : Nat × Nat => a.2 < b.1) (merge_intervals l) ∧
    List.Pairwise (fun a b : Nat × Nat =>
      ∀ x : Nat, ¬(a.1 ≤ x ∧ x < a.2 ∧ b.1 ≤ x ∧ x < b.2)) (merge_intervals l) := by
  refine ⟨rfl, ?_, ?_, ?_⟩
  · exact (merge_intervals_pairwise l).imp (fun h => h.2)
  · exact (merge_intervals_chain' l).imp (fun _ _ h => h.1)
  · refine (merge_intervals_pairwise l).imp (fun h x hx => ?_)
    exact absurd (lt_trans (lt_of_le_of_lt hx.2.2.1 hx.2.1) h.1) (lt_irrefl _)

/-- C7: for off-interval lists made of data-model intervals
(`start < end ≤ 1440`), `merge_intervals off` and `invert_intervals off`
cover `[0, 1440)` exactly and are disjoint; `invert_intervals []` is the
single interval `[0, 1440)`. -/
theorem merge_invert_partition (off : List (Nat × Nat))
    (h : ∀ p ∈ off, p.1 < p.2 ∧ p.2 ≤ 1440) :
    (∀ x, x < 1440 ↔ (covers (merge_intervals off) x ∨ covers (invert_intervals off) x)) ∧
    (∀ x, ¬ (covers (merge_intervals off) x ∧ covers (invert_intervals off) x)) ∧
    invert_intervals [] = [(0, 1440)] := by
  have hpr : ∀ p ∈ off, p.1 < p.2 := fun p hp => (h p hp).1
  have hbd : ∀ p ∈ off, p.2 ≤ 1440 := fun p hp => (h p hp).2
  have hmb : ∀ p ∈ merge_intervals off, p.2 ≤ 1440 := merge_intervals_bounded hbd
  refine ⟨fun x => ?_, fun x => ?_, rfl⟩
  · rw [invert_intervals_covers hpr hbd x]
    constructor
    · intro hx
      by_cases hc : covers (merge_intervals off) x
      · exact Or.inl hc
      · exact Or.inr ⟨hx, hc⟩
    · rintro (hc | ⟨hx, _⟩)
      · obtain ⟨p, hp, _, h2⟩ := hc
        exact lt_of_lt_of_le h2 (hmb p hp)
      · exact hx
  · rw [invert_intervals_covers hpr hbd x]
    rintro ⟨hc, _, hnc⟩
    exact hnc hc

/-- Witness for C7 at the concrete off list `[(600, 840)]`. -/
theorem merge_invert_partition_witness :
    (∀ p ∈ [((600 : Nat), (840 : Nat))], p.1 < p.2 ∧ p.2 ≤ 1440) ∧
    ((∀ x, x < 1440 ↔
        (covers (merge_intervals [(600, 840)]) x ∨ covers (invert_intervals [(600, 840)]) x)) ∧
      (∀ x, ¬ (covers (merge_intervals [(600, 840)]) x ∧ covers (invert_intervals [(600, 840)]) x)) ∧
      invert_intervals [] = [(0, 1440)]) :=
  ⟨by decide, merge_invert_partition [(600, 840)] (by decide)⟩

/-! ## Lemmas about normalization and the digest preimage -/

theorem normalize_intervals_perm {l₁ l₂ : List String}
    (hperm : (parseIntervals l₁).Perm (parseIntervals l₂))
    (hpr : ∀ p ∈ parseIntervals l₁, p.1 < p.2) :
    normalize_intervals l₁ = normalize_intervals l₂ := by
  cases h1 : parseIntervals l₁ with
  | nil =>
    have h3 := hperm
    rw [h1] at h3
    have h2 : parseIntervals l₂ = [] := h3.symm.eq_nil
    simp only [normalize_intervals, h1, h2]
  | cons a t =>
    cases h2 : parseIntervals l₂ with
    | nil =>
      have h3 := hperm
      rw [h1, h2] at h3
      exact absurd h3.eq_nil (List.cons_ne_nil a t)
    | cons b t2 =>
      have hm := merge_intervals_perm_eq hperm hpr
      simp only [normalize_intervals, h1, h2]
      rw [← h1, ← h2, hm]

theorem digit_char_clean {d : Nat} (hd : d < 10) :
    Char.ofNat (48 + d) ≠ ',' ∧ Char.ofNat (48 + d) ≠ ';' := by
  interval_cases d <;> exact ⟨by decide, by decide⟩

theorem pad2_clean (n : Nat) : ∀ c ∈ (pad2 n).data, c ≠ ',' ∧ c ≠ ';' := by
  intro c hc
  have h1 : (pad2 n).data = [Char.ofNat (48 + n / 10 % 10), Char.ofNat (48 + n % 10)] := rfl
  rw [h1] at hc
  simp only [List.mem_cons, List.not_mem_nil, or_false] at hc
  rcases hc with rfl | rfl
  · exact digit_char_clean (Nat.mod_lt _ (by norm_num))
  · exact digit_char_clean (Nat.mod_lt _ (by norm_num))

theorem minutes_to_time_clean (n : Nat) :
    ∀ c ∈ (minutes_to_time n).data, c ≠ ',' ∧ c ≠ ';' := by
  intro c hc
  unfold minutes_to_time at hc
  by_cases h : n ≥ 1440
  · rw [if_pos h] at hc
    have h24 : ("24:00" : String).data = ['2', '4', ':', '0', '0'] := rfl
    rw [h24] at hc
    simp only [List.mem_cons, List.not_mem_nil, or_false] at hc
    rcases hc with rfl | rfl | rfl | rfl | rfl <;> exact ⟨by decide, by decide⟩
  · rw [if_neg h] at hc
    simp only [String.data_append] at hc
    rcases List.mem_append.mp hc with hc1 | hc2
    · rcases List.mem_append.mp hc1 with hc3 | hc4
      · exact pad2_clean _ c hc3
      · simp only [List.mem_singleton] at hc4
        subst hc4
        exact ⟨by decide, by decide⟩
    · exact pad2_clean _ c hc2

/-- The cleanliness of a section's string list: no `','`, no `';'`, no
empty entry — what the joined canonical string's decoding needs. -/
def cleanStrList (L : List String) : Prop :=
  ∀ s ∈ L, (',' ∉ s.data ∧ ';' ∉ s.data) ∧ s.data ≠ []

theorem intervals_to_strings_clean (l : List (Nat × Nat)) :
    cleanStrList (intervals_to_strings l) := by
  intro s hs
  unfold intervals_to_strings at hs
  obtain ⟨p, _, rfl⟩ := List.mem_map.mp hs
  have hdash : ("–" : String).data = ['–'] := rfl
  refine ⟨⟨?_, ?_⟩, ?_⟩
  · intro hmem
    simp only [String.data_append, hdash] at hmem
    rcases List.mem_append.mp hmem with h1 | h2
    · rcases List.mem_append.mp h1 with h3 | h4
      · exact (minutes_to_time_clean _ _ h3).1 rfl
      · simp only [List.mem_singleton] at h4
        exact absurd h4.symm (by decide)
    · exact (minutes_to_time_clean _ _ h2).1 rfl
  · intro hmem
    simp only [String.data_append, hdash] at hmem
    rcases List.mem_append.mp hmem with h1 | h2
    · rcases List.mem_append.mp h1 with h3 | h4
      · exact (minutes_to_time_clean _ _ h3).2 rfl
      · simp only [List.mem_singleton] at h4
        exact absurd h4.symm (by decide)
    · exact (minutes_to_time_clean _ _ h2).2 rfl
  · have : '–' ∈ (minutes_to_time p.1 ++ "–" ++ minutes_to_time p.2).data := by
      simp only [String.data_append, hdash]
      exact List.mem_append.mpr (Or.inl (List.mem_append.mpr (Or.inr (List.mem_singleton.mpr rfl))))
    exact List.ne_nil_of_mem this

theorem normalize_intervals_clean (l : List String) :
    cleanStrList (normalize_intervals l) := by
  unfold normalize_intervals
  cases parseIntervals l with
  | nil => intro s hs; exact absurd hs (List.not_mem_nil s)
  | cons a t => exact intervals_to_strings_clean _

theorem joinComma_cons_cons (s s₂ : String) (t : List String) :
    joinComma (s :: s₂ :: t) = s ++ "," ++ joinComma (s₂ :: t) := rfl

theorem joinComma_data_no_char {c : Char} (hc : c ≠ ',') :
    ∀ (l : List String), (∀ s ∈ l, c ∉ s.data) → c ∉ (joinComma l).data
  | [], _ => by
    intro hmem
    exact absurd hmem (List.not_mem_nil c)
  | [s], h => by
    intro hmem
    exact h s (List.mem_singleton.mpr rfl) hmem
  | s :: s₂ :: t, h => by
    intro hmem
    rw [joinComma_cons_cons] at hmem
    simp only [String.data_append] at hmem
    rcases List.mem_append.mp hmem with h1 | h2
    · rcases List.mem_append.mp h1 with h3 | h4
      · exact h s (List.mem_cons_self _ _) h3
      · simp only [List.mem_singleton] at h4
        exact hc h4
    · exact joinComma_data_no_char hc (s₂ :: t)
        (fun x hx => h x (List.mem_cons_of_mem _ hx)) h2

theorem append_sep_inj {c : Char} :
    ∀ (xs xs' ys ys' : List Char), c ∉ xs → c ∉ xs' →
      xs ++ c :: ys = xs' ++ c :: ys' → xs = xs' ∧ ys = ys'
  | [], [], _, _, _, _, h => ⟨rfl, by simpa using h⟩
  | [], a' :: t', _, _, _, h2, h => by
    simp only [List.nil_append, List.cons_append, List.cons.injEq] at h
    exact absurd (List.mem_cons.mpr (Or.inl h.1)) h2
  | a :: t, [], _, _, h1, _, h => by
    simp only [List.nil_append, List.cons_append, List.cons.injEq] at h
    exact absurd (List.mem_cons.mpr (Or.inl h.1.symm)) h1
  | a :: t, a' :: t', ys, ys', h1, h2, h => by
    simp only [List.cons_append, List.cons.injEq] at h
    have ih := append_sep_inj t t' ys ys'
      (fun hm => h1 (List.mem_cons_of_mem _ hm))
      (fun hm => h2 (List.mem_cons_of_mem _ hm)) h.2
    exact ⟨by rw [h.1, ih.1], ih.2⟩

theorem joinComma_inj :
    ∀ (l₁ l₂ : List String), (∀ s ∈ l₁, ',' ∉ s.data ∧ s.data ≠ []) →
      (∀ s ∈ l₂, ',' ∉ s.data ∧ s.data ≠ []) →
      joinComma l₁ = joinComma l₂ → l₁ = l₂
  | [], [], _, _, _ => rfl
  | [], [s], _, h2, h => by
    have hd := congrArg String.data h
    exact absurd hd.symm (h2 s (List.mem_singleton.mpr rfl)).2
  | [], s :: s₂ :: t, _, _, h => by
    have hd := congrArg String.data h
    rw [joinComma_cons_cons] at hd
    simp only [String.data_append] at hd
    have : ',' ∈ (joinComma ([] : List String)).data := by
      rw [hd]
      exact List.mem_append.mpr (Or.inl (List.mem_append.mpr
        (Or.inr (List.mem_singleton.mpr rfl))))
    exact absurd this (List.not_mem_nil ',')
  | [s], [], h1, _, h => by
    have hd := congrArg String.data h
    exact absurd hd (h1 s (List.mem_singleton.mpr rfl)).2
  | s :: s₂ :: t, [], _, _, h => by
    have hd := congrArg String.data h
    rw [joinComma_cons_cons] at hd
    simp only [String.data_append] at hd
    have : ',' ∈ (joinComma ([] : List String)).data := by
      rw [← hd]
      exact List.mem_append.mpr (Or.inl (List.mem_append.mpr
        (Or.inr (List.mem_singleton.mpr rfl))))
    exact absurd this (List.not_mem_nil ',')
  | [s], [s'], _, _, h => by
    rw [show joinComma [s] = s from rfl, show joinComma [s'] = s' from rfl] at h
    rw [h]
  | [s], s' :: s₂' :: t', h1, _, h => by
    have hd := congrArg String.data h
    rw [show joinComma [s] = s from rfl, joinComma_cons_cons] at hd
    simp only [String.data_append] at hd
    have : ',' ∈ s.data := by
      rw [hd]
      exact List.mem_append.mpr (Or.inl (List.mem_append.mpr
        (Or.inr (List.mem_singleton.mpr rfl))))
    exact absurd this (h1 s (List.mem_singleton.mpr rfl)).1
  | s :: s₂ :: t, [s'], _, h2, h => by
    have hd := congrArg String.data h
    rw [show joinComma [s'] = s' from rfl, joinComma_cons_cons] at hd
    simp only [String.data_append] at hd
    have : ',' ∈ s'.data := by
      rw [← hd]
      exact List.mem_append.mpr (Or.inl (List.mem_append.mpr
        (Or.inr (List.mem_singleton.mpr rfl))))
    exact absurd this (h2 s' (List.mem_singleton.mpr rfl)).1
  | s :: s₂ :: t, s' :: s₂' :: t', h1, h2, h => by
    have hd := congrArg String.data h
    rw [joinComma_cons_cons, joinComma_cons_cons] at hd
    simp only [String.data_append, List.append_assoc, List.singleton_append] at hd
    have hsplit := append_sep_inj s.data s'.data _ _
      (h1 s (List.mem_cons_self _ _)).1 (h2 s' (List.mem_cons_self _ _)).1 hd
    have hs : s = s' := String.ext hsplit.1
    have hJ : joinComma (s₂ :: t) = joinComma (s₂' :: t') := String.ext hsplit.2
    have ih := joinComma_inj (s₂ :: t) (s₂' :: t')
      (fun x hx => h1 x (List.mem_cons_of_mem _ hx))
      (fun x hx => h2 x (List.mem_cons_of_mem _ hx)) hJ
    rw [hs, ih]

theorem cleanStrList.comma_free {L : List String} (h : cleanStrList L) :
    ∀ s ∈ L, ',' ∉ s.data ∧ s.data ≠ [] :=
  fun s hs => ⟨(h s hs).1.1, (h s hs).2⟩

theorem cleanStrList.join_semi_free {L : List String} (h : cleanStrList L) :
    ';' ∉ (joinComma L).data :=
  joinComma_data_no_char (by decide) L (fun s hs => (h s hs).1.2)

/-- For a fixed date, the canonical string determines the three normalized
string lists (the section and item separators cannot occur inside clean
items). -/
theorem canonical_string_inj {d : String} {A B C A' B' C' : List String}
    (hA : cleanStrList A) (hB : cleanStrList B) (hC : cleanStrList C)
    (hA' : cleanStrList A') (hB' : cleanStrList B') (hC' : cleanStrList C')
    (h : canonical_string d A B C = canonical_string d A' B' C') :
    A = A' ∧ B = B' ∧ C = C' := by
  have hd := congrArg String.data h
  simp only [canonical_string, String.data_append, List.append_assoc] at hd
  have h0 := List.append_cancel_left hd
  simp only [List.cons_append, List.nil_append, List.cons.injEq, true_and] at h0
  have hsplitA := append_sep_inj _ _ _ _ hA.join_semi_free hA'.join_semi_free h0
  have hAeq : A = A' := joinComma_inj A A' hA.comma_free hA'.comma_free (String.ext hsplitA.1)
  have h1 := hsplitA.2
  simp only [List.cons.injEq, true_and] at h1
  have hsplitB := append_sep_inj _ _ _ _ hB.join_semi_free hB'.join_semi_free h1
  have hBeq : B = B' := joinComma_inj B B' hB.comma_free hB'.comma_free (String.ext hsplitB.1)
  have h2 := hsplitB.2
  simp only [List.cons.injEq, true_and] at h2
  have hCeq : C = C' := joinComma_inj C C' hC.comma_free hC'.comma_free (String.ext h2)
  exact ⟨hAeq, hBeq, hCeq⟩

/-- If any of the three normalized lists differ, the digest preimages
differ (same date on both sides). -/
theorem hash_input_ne {d : String} {off₁ on₁ mb₁ off₂ on₂ mb₂ : List String}
    (hne : normalize_intervals off₁ ≠ normalize_intervals off₂ ∨
      normalize_intervals on₁ ≠ normalize_intervals on₂ ∨
      normalize_intervals mb₁ ≠ normalize_intervals mb₂) :
    hash_input d off₁ on₁ mb₁ ≠ hash_input d off₂ on₂ mb₂ := by
  intro he
  have := canonical_string_inj
    (normalize_intervals_clean off₁) (normalize_intervals_clean on₁)
    (normalize_intervals_clean mb₁) (normalize_intervals_clean off₂)
    (normalize_intervals_clean on₂) (normalize_intervals_clean mb₂) he
  rcases hne with h | h | h
  · exact h this.1
  · exact h this.2.1
  · exact h this.2.2

/-! ## Claim C5 -/

set_option maxRecDepth 1000000 in
/-- C5 (counterexample): `compute_group_hash` is not invariant under
reordering of the input strings.  With the degenerate (end-before-start)
intervals `"05:00–01:00"` and `"05:00–03:00"`, which share a start, the
stable sort keeps the input order, the merging fold joins neither, and the
two orders produce different canonical strings and hence different
digests. -/
theorem hash_order_dependence_counterexample :
    compute_group_hash "01.01.2025" ["05:00–01:00", "05:00–03:00"] [] [] ≠
      compute_group_hash "01.01.2025" ["05:00–03:00", "05:00–01:00"] [] [] := by
  decide

set_option maxRecDepth 1000000 in
/-- C5 (amended): (1) for inputs whose parsed intervals are proper
(`start < end`), `compute_group_hash` depends only on the schedule date
and the multisets of parsed intervals — so it is invariant under
reordering of the strings and under the `'–'`/`'-'` separator choice;
(2) inputs with different normalized lists (e.g. a canonical boundary
moved by one minute) have different digest preimages; and (3) on a
concrete one-minute boundary shift the digests themselves differ. -/
theorem hash_canonical_stability :
    (∀ (d : String) (off₁ on₁ mb₁ off₂ on₂ mb₂ : List String),
      (parseIntervals off₁).Perm (parseIntervals off₂) →
      (parseIntervals on₁).Perm (parseIntervals on₂) →
      (parseIntervals mb₁).Perm (parseIntervals mb₂) →
      (∀ p ∈ parseIntervals off₁, p.1 < p.2) →
      (∀ p ∈ parseIntervals on₁, p.1 < p.2) →
      (∀ p ∈ parseIntervals mb₁, p.1 < p.2) →
      compute_group_hash d off₁ on₁ mb₁ = compute_group_hash d off₂ on₂ mb₂) ∧
    (∀ (d : String) (off₁ on₁ mb₁ off₂ on₂ mb₂ : List String),
      (normalize_intervals off₁ ≠ normalize_intervals off₂ ∨
        normalize_intervals on₁ ≠ normalize_intervals on₂ ∨
        normalize_intervals mb₁ ≠ normalize_intervals mb₂) →
      hash_input d off₁ on₁ mb₁ ≠ hash_input d off₂ on₂ mb₂) ∧
    compute_group_hash "01.01.2025" ["10:00–14:00"] ["00:00–10:00", "14:00–24:00"] [] ≠
      compute_group_hash "01.01.2025" ["10:01–14:00"] ["00:00–10:00", "14:00–24:00"] [] := by
  refine ⟨?_, ?_, by decide⟩
  · intro d off₁ on₁ mb₁ off₂ on₂ mb₂ hpo hpn hpm hro hrn hrm
    have e1 := normalize_intervals_perm hpo hro
    have e2 := normalize_intervals_perm hpn hrn
    have e3 := normalize_intervals_perm hpm hrm
    simp only [compute_group_hash, hash_input, e1, e2, e3]
  · intro d off₁ on₁ mb₁ off₂ on₂ mb₂ hne
    exact hash_input_ne hne

/-- Witness for C5 (amended), discharging the hypotheses at concrete
inputs: part 1 at a reordered pair that also swaps a `'–'` for a `'-'`,
part 2 at a one-minute boundary shift. -/
theorem hash_canonical_stability_witness :
    ((parseIntervals ["12:00-14:00", "10:00–12:00"]).Perm
        (parseIntervals ["10:00–12:00", "12:00–14:00"]) ∧
      (∀ p ∈ parseIntervals ["12:00-14:00", "10:00–12:00"], p.1 < p.2) ∧
      compute_group_hash "01.01.2025" ["12:00-14:00", "10:00–12:00"] [] [] =
        compute_group_hash "01.01.2025" ["10:00–12:00", "12:00–14:00"] [] []) ∧
    (normalize_intervals ["10:00–14:00"] ≠ normalize_intervals ["10:01–14:00"] ∧
      hash_input "01.01.2025" ["10:00–14:00"] [] [] ≠
        hash_input "01.01.2025" ["10:01–14:00"] [] []) :=
  ⟨⟨by decide, by decide,
    hash_canonical_stability.1 "01.01.2025" ["12:00-14:00", "10:00–12:00"] [] []
      ["10:00–12:00", "12:00–14:00"] [] [] (by decide) (by decide) (by decide)
      (by decide) (by decide) (by decide)⟩,
   ⟨by decide,
    hash_canonical_stability.2.1 "01.01.2025" ["10:00–14:00"] [] [] ["10:01–14:00"] [] []
      (Or.inl (by decide))⟩⟩

/-! ## Claim C1: the per-(group, slot) state store -/

/-- C1: `saveState` persists one row per `(group_code, slot)`:
`getState` on the written `(slot, group)` returns exactly the saved row,
and every other `(slot', group')` — in particular the other slot of the
same group — is untouched, so today's and tomorrow's states are stored and
retrievable independently. -/
theorem stateStore_slot_roundtrip (db : DB) (slot : Slot) (g d h data now : String) :
    getState (saveState db slot g d h data now) slot g = some ⟨d, h, data, now⟩ ∧
    (∀ (slot' : Slot) (g' : String), slot' ≠ slot ∨ g' ≠ g →
      getState (saveState db slot g d h data now) slot' g' = getState db slot' g') := by
  constructor
  · cases slot <;>
      simp [getState, saveState, get_group_state, save_group_state,
        get_group_state_tomorrow, save_group_state_tomorrow]
  · intro slot' g' hne
    cases slot with
    | today =>
      cases slot' with
      | today =>
        have hg : g' ≠ g := by
          rcases hne with h1 | h1
          · exact absurd rfl h1
          · exact h1
        simp [getState, saveState, get_group_state, save_group_state, hg]
      | tomorrow => rfl
    | tomorrow =>
      cases slot' with
      | today => rfl
      | tomorrow =>
        have hg : g' ≠ g := by
          rcases hne with h1 | h1
          · exact absurd rfl h1
          · exact h1
        simp [getState, saveState, get_group_state, save_group_state,
          get_group_state_tomorrow, save_group_state_tomorrow, hg]

/-- Witness for C1: a concrete save into the today slot is read back, and
the tomorrow slot of the same group is unaffected. -/
theorem stateStore_slot_roundtrip_witness :
    getState (saveState ⟨fun _ => none, fun _ => none⟩ .today "1.1" "01.01.2025" "h0" "j0" "t0")
        .today "1.1" = some ⟨"01.01.2025", "h0", "j0", "t0"⟩ ∧
    getState (saveState ⟨fun _ => none, fun _ => none⟩ .today "1.1" "01.01.2025" "h0" "j0" "t0")
        .tomorrow "1.1" =
      getState ⟨fun _ => none, fun _ => none⟩ .tomorrow "1.1" :=
  ⟨(stateStore_slot_roundtrip ⟨fun _ => none, fun _ => none⟩ .today "1.1" "01.01.2025" "h0" "j0" "t0").1,
   (stateStore_slot_roundtrip ⟨fun _ => none, fun _ => none⟩ .today "1.1" "01.01.2025" "h0" "j0" "t0").2
     .tomorrow "1.1" (Or.inl (by decide))⟩

/-! ## Claim C8: the rate limiter -/

/-- C8: `can_send_message` fails open when no user row or no
`last_sent_at` is recorded; with a recorded send it allows iff
`now - last_sent ≥ 60 / max_per_minute`; and with `max_per_minute = 1`, a
check `δ` seconds after a recorded send succeeds iff `δ ≥ 60`. -/
theorem can_send_rate_limit :
    (∀ (users : List User) (id : Int) (m : Nat) (now : ℚ),
      (∀ u ∈ users, u.tg_user_id ≠ id) → can_send_message users id m now = true) ∧
    (∀ (users : List User) (id : Int) (u : User) (m : Nat) (now : ℚ),
      users.find? (fun v => decide (v.tg_user_id = id)) = some u →
      u.last_sent_at = none → can_send_message users id m now = true) ∧
    (∀ (users : List User) (id : Int) (u : User) (m : Nat) (now t : ℚ),
      users.find? (fun v => decide (v.tg_user_id = id)) = some u →
      u.last_sent_at = some t → 0 < m →
      (can_send_message users id m now = true ↔ (60 : ℚ) / (m : ℚ) ≤ now - t)) ∧
    (∀ (id chat : Int) (g : Option String) (sub : Bool) (t δ : ℚ),
      can_send_message [⟨id, chat, g, sub, some t⟩] id 1 (t + δ) = true ↔ 60 ≤ δ) := by
  refine ⟨?_, ?_, ?_, ?_⟩
  · intro users id m now hno
    unfold can_send_message
    rw [List.find?_eq_none.mpr (fun u hu => by simpa using hno u hu)]
  · intro users id u m now hfind hnone
    unfold can_send_message
    rw [hfind]
    show (match u.last_sent_at with
      | none => true
      | some last_sent => if m = 0 then true
        else decide ((60 : ℚ) / (m : ℚ) ≤ now - last_sent)) = true
    rw [hnone]
  · intro users id u m now t hfind hsome hm
    unfold can_send_message
    rw [hfind]
    show (match u.last_sent_at with
      | none => true
      | some last_sent => if m = 0 then true
        else decide ((60 : ℚ) / (m : ℚ) ≤ now - last_sent)) = true ↔ (60 : ℚ) / (m : ℚ) ≤ now - t
    rw [hsome]
    show (if m = 0 then true else decide ((60 : ℚ) / (m : ℚ) ≤ now - t)) = true ↔
      (60 : ℚ) / (m : ℚ) ≤ now - t
    rw [if_neg (Nat.pos_iff_ne_zero.mp hm)]
    exact decide_eq_true_iff
  · intro id chat g sub t δ
    have hfind : ([⟨id, chat, g, sub, some t⟩] : List User).find?
        (fun v => decide (v.tg_user_id = id)) = some ⟨id, chat, g, sub, some t⟩ :=
      List.find?_cons_of_pos _ (by simp)
    unfold can_send_message
    rw [hfind]
    show (if (1 : Nat) = 0 then true
      else decide ((60 : ℚ) / ((1 : Nat) : ℚ) ≤ t + δ - t)) = true ↔ 60 ≤ δ
    rw [if_neg (by norm_num)]
    rw [decide_eq_true_iff]
    constructor
    · intro h1
      have : ((60 : ℚ) ≤ δ) := by
        have h2 : ((1 : Nat) : ℚ) = 1 := by norm_num
        rw [h2, div_one, add_sub_cancel_left] at h1
        exact h1
      exact this
    · intro h1
      have h2 : ((1 : Nat) : ℚ) = 1 := by norm_num
      rw [h2, div_one, add_sub_cancel_left]
      exact h1

/-- Witness for C8: concrete fail-open and threshold checks. -/
theorem can_send_rate_limit_witness :
    ((∀ u ∈ ([] : List User), u.tg_user_id ≠ 7) ∧ can_send_message [] 7 1 0 = true) ∧
    ((can_send_message [⟨7, 7, none, true, some 100⟩] 7 1 (100 + 59) = true ↔ (60 : ℚ) ≤ 59) ∧
      (can_send_message [⟨7, 7, none, true, some 100⟩] 7 1 (100 + 60) = true ↔ (60 : ℚ) ≤ 60)) :=
  ⟨⟨fun u hu => absurd hu (List.not_mem_nil u), can_send_rate_limit.1 [] 7 1 0
      (fun u hu => absurd hu (List.not_mem_nil u))⟩,
   ⟨can_send_rate_limit.2.2.2 7 7 none true 100 59,
    can_send_rate_limit.2.2.2 7 7 none true 100 60⟩⟩

/-! ## Claim C9: delivery-target invariant -/

/-- C9: every user in the list `get_subscribed_users_for_group` resolves
for a job's group carries that group (so a `NULL` `group_code` is
impossible) and has `is_subscribed` set — such users are the only delivery
targets of the dispatcher. -/
theorem subscribers_invariant (users : List User) (g : String) :
    ∀ u ∈ get_subscribed_users_for_group users g,
      u.group_code = some g ∧ u.group_code ≠ none ∧ u.is_subscribed = true := by
  intro u hu
  unfold get_subscribed_users_for_group at hu
  have hmem := List.mem_filter.mp hu
  have hb := hmem.2
  rw [Bool.and_eq_true, decide_eq_true_eq] at hb
  refine ⟨hb.1, ?_, hb.2⟩
  rw [hb.1]
  exact Option.some_ne_none g

/-- Witness for C9: a concrete subscriber table with a matching
subscribed user, an unsubscribed user, and a user with no group. -/
theorem subscribers_invariant_witness :
    (⟨1, 10, some "1.1", true, none⟩ : User) ∈
        get_subscribed_users_for_group
          [⟨1, 10, some "1.1", true, none⟩, ⟨2, 20, some "1.1", false, none⟩,
           ⟨3, 30, none, true, none⟩] "1.1" ∧
      ((⟨1, 10, some "1.1", true, none⟩ : User).group_code = some "1.1" ∧
        (⟨1, 10, some "1.1", true, none⟩ : User).group_code ≠ none ∧
        (⟨1, 10, some "1.1", true, none⟩ : User).is_subscribed = true) :=
  ⟨by decide,
   subscribers_invariant
     [⟨1, 10, some "1.1", true, none⟩, ⟨2, 20, some "1.1", false, none⟩,
      ⟨3, 30, none, true, none⟩] "1.1" ⟨1, 10, some "1.1", true, none⟩ (by decide)⟩

/-! ## Claim C10: the user upsert -/

/-- C10: for an existing `tg_user_id`, `create_or_update_user` rewrites
exactly `tg_chat_id` and `group_code` (the latter to the passed value,
including `none`), leaving `is_subscribed` and `last_sent_at` unchanged;
the `/start` handler passes no group, so it resets the stored group to
`none`. -/
theorem upsert_overwrites_group_preserves_subscription
    (users : List User) (id chat : Int) (g : Option String)
    (hex : ∃ u ∈ users, u.tg_user_id = id) :
    (create_or_update_user users id chat g =
      users.map fun v =>
        if v.tg_user_id = id then ⟨v.tg_user_id, chat, g, v.is_subscribed, v.last_sent_at⟩
        else v) ∧
    (∀ v ∈ users, v.tg_user_id = id →
      (⟨v.tg_user_id, chat, g, v.is_subscribed, v.last_sent_at⟩ : User) ∈
        create_or_update_user users id chat g) ∧
    (cmd_start_user_update users id chat =
      users.map fun v =>
        if v.tg_user_id = id then ⟨v.tg_user_id, chat, none, v.is_subscribed, v.last_sent_at⟩
        else v) := by
  obtain ⟨u, hu, hid⟩ := hex
  have hany : users.any (fun v => decide (v.tg_user_id = id)) = true :=
    List.any_eq_true.mpr ⟨u, hu, by simp [hid]⟩
  have hmain : ∀ g' : Option String, create_or_update_user users id chat g' =
      users.map fun v =>
        if v.tg_user_id = id then ⟨v.tg_user_id, chat, g', v.is_subscribed, v.last_sent_at⟩
        else v := by
    intro g'
    unfold create_or_update_user
    rw [if_pos hany]
  refine ⟨hmain g, ?_, hmain none⟩
  intro v hv hvid
  rw [hmain g]
  refine List.mem_map.mpr ⟨v, hv, ?_⟩
  rw [if_pos hvid]

/-- Witness for C10: a concrete table where the row exists; re-running
`/start` resets the chosen group to `none` and keeps the subscription
flag and `last_sent_at`. -/
theorem upsert_overwrites_group_witness :
    (∃ u ∈ [(⟨5, 50, some "2.2", false, some 10⟩ : User)], u.tg_user_id = 5) ∧
    (cmd_start_user_update [⟨5, 50, some "2.2", false, some 10⟩] 5 51 =
      [(⟨5, 51, none, false, some 10⟩ : User)]) :=
  ⟨⟨⟨5, 50, some "2.2", false, some 10⟩, List.mem_singleton.mpr rfl, rfl⟩, by
    rw [(upsert_overwrites_group_preserves_subscription
      [⟨5, 50, some "2.2", false, some 10⟩] 5 51 (some "9.9")
      ⟨⟨5, 50, some "2.2", false, some 10⟩, List.mem_singleton.mpr rfl, rfl⟩).2.2]
    decide⟩

/-! ## Claim C3: the bounded-queue enqueue pass -/

/-- C3 (counterexample): with capacity 1 and three changed jobs, the
enqueue pass keeps only the first job, drops the second *and* the third
(the loop `break`s, so the third is dropped without its own full-queue
check), logs a single line, and that line carries no group identity —
jobs differing only in the dropped job's `group_code` yield identical
logs. -/
theorem enqueue_drop_claim_counterexample :
    (enqueueJobs 1 .today []
        [⟨.today, "1.1", "01.01.2025", [], [], [], false⟩,
         ⟨.today, "2.1", "01.01.2025", [], [], [], false⟩,
         ⟨.today, "3.1", "01.01.2025", [], [], [], false⟩]).1 =
      [⟨.today, "1.1", "01.01.2025", [], [], [], false⟩] ∧
    (enqueueJobs 1 .today []
        [⟨.today, "1.1", "01.01.2025", [], [], [], false⟩,
         ⟨.today, "2.1", "01.01.2025", [], [], [], false⟩,
         ⟨.today, "3.1", "01.01.2025", [], [], [], false⟩]).2 =
      ["notification_queue_full: dropping today job"] ∧
    (enqueueJobs 1 .today []
        [⟨.today, "1.1", "01.01.2025", [], [], [], false⟩,
         ⟨.today, "2.1", "01.01.2025", [], [], [], false⟩,
         ⟨.today, "3.1", "01.01.2025", [], [], [], false⟩]).2 =
      (enqueueJobs 1 .today []
        [⟨.today, "1.1", "01.01.2025", [], [], [], false⟩,
         ⟨.today, "2.2", "01.01.2025", [], [], [], false⟩,
         ⟨.today, "3.1", "01.01.2025", [], [], [], false⟩]).2 := by
  decide

/-- C3 (amended): the enqueue pass is a total (never-blocking) function
whose closed form shows the drop policy: the queue receives exactly the
jobs that fit in the remaining capacity, in order; when the capacity is
exceeded the remaining jobs of that slot's cycle are all dropped with a
single log line naming only the slot, and no dropped job is re-examined
or retried. -/
theorem enqueueJobs_closed_form (cap : Nat) (slot : Slot) :
    ∀ (jobs queue : List Job),
      enqueueJobs cap slot queue jobs =
        (queue ++ jobs.take (cap - queue.length),
          if jobs.length ≤ cap - queue.length then [] else [dropLogMessage slot])
  | [], queue => by simp [enqueueJobs]
  | j :: rest, queue => by
    by_cases h : cap ≤ queue.length
    · have h0 : cap - queue.length = 0 := Nat.sub_eq_zero_of_le h
      have h1 : ¬ ((j :: rest).length ≤ cap - queue.length) := by
        rw [h0]
        simp
      simp [enqueueJobs, h, h0, h1]
    · have ih := enqueueJobs_closed_form cap slot rest (queue ++ [j])
      have hlen : (queue ++ [j]).length = queue.length + 1 := by simp
      have hs : cap - queue.length = (cap - (queue.length + 1)) + 1 := by omega
      have hiff : (rest.length ≤ cap - (queue.length + 1)) ↔
          ((j :: rest).length ≤ cap - queue.length) := by
        simp only [List.length_cons, hs]
        omega
      simp only [enqueueJobs, if_neg h, ih, hlen]
      rw [hs, List.take_succ_cons]
      by_cases hc : rest.length ≤ cap - (queue.length + 1)
      · rw [if_pos hc, if_pos (by rw [← hs]; exact hiff.mp hc)]
        simp
      · rw [if_neg hc, if_neg (by rw [← hs]; exact fun hx => hc (hiff.mpr hx))]
        simp

/-! ## Lemmas about the detection pass -/

theorem detectGroup_hash_state (slot : Slot) (t : StateTable) (d g : String)
    (data : GroupData) (now : String) :
    ∃ st : GroupState, (detectGroup slot t d g data now).1 g = some st ∧
      st.hash = compute_group_hash d data.off_intervals data.on_intervals data.maybe_intervals := by
  unfold detectGroup
  cases hold : get_group_state t g with
  | none =>
    simp only [hold]
    exact ⟨⟨d, compute_group_hash d data.off_intervals data.on_intervals data.maybe_intervals,
      dumps_schedule data.off_intervals data.on_intervals data.maybe_intervals, now⟩,
      by simp [save_group_state], rfl⟩
  | some old =>
    by_cases hh : old.hash =
        compute_group_hash d data.off_intervals data.on_intervals data.maybe_intervals
    · simp only [hold, if_pos hh]
      exact ⟨old, hold, hh⟩
    · simp only [hold, if_neg hh]
      exact ⟨⟨d, compute_group_hash d data.off_intervals data.on_intervals data.maybe_intervals,
        dumps_schedule data.off_intervals data.on_intervals data.maybe_intervals, now⟩,
        by simp [save_group_state], rfl⟩

theorem detectGroup_frame (slot : Slot) (t : StateTable) (d g : String)
    (data : GroupData) (now : String) {g' : String} (hne : g' ≠ g) :
    (detectGroup slot t d g data now).1 g' = t g' := by
  unfold detectGroup
  cases hold : get_group_state t g with
  | none => simp [save_group_state, hne]
  | some old =>
    by_cases hh : old.hash =
        compute_group_hash d data.off_intervals data.on_intervals data.maybe_intervals
    · simp [hold, hh]
    · simp [hold, hh, save_group_state, hne]

theorem detectGroup_unchanged (slot : Slot) (t : StateTable) (d g : String)
    (data : GroupData) (now : String) (st : GroupState) (h : t g = some st)
    (hh : st.hash = compute_group_hash d data.off_intervals data.on_intervals data.maybe_intervals) :
    detectGroup slot t d g data now = (t, none) := by
  unfold detectGroup
  simp only [get_group_state, h, if_pos hh]

theorem detectPhase_frame (slot : Slot) (d now : String) :
    ∀ (groups : List (String × GroupData)) (t : StateTable) (g : String),
      (∀ gp ∈ groups, gp.1 ≠ g) → (detectPhase slot t d now groups).1 g = t g
  | [], _, _, _ => rfl
  | (g0, dat) :: rest, t, g, h => by
    simp only [detectPhase]
    rw [detectPhase_frame slot d now rest _ g (fun gp hgp => h gp (List.mem_cons_of_mem _ hgp)),
      detectGroup_frame slot t d g0 dat now (Ne.symm (h (g0, dat) (List.mem_cons_self _ _)))]

theorem detectPhase_mem (slot : Slot) (d now : String) :
    ∀ (groups : List (String × GroupData)) (t : StateTable),
      (groups.map Prod.fst).Nodup →
      ∀ gp ∈ groups, ∃ st : GroupState,
        (detectPhase slot t d now groups).1 gp.1 = some st ∧
          st.hash = compute_group_hash d gp.2.off_intervals gp.2.on_intervals gp.2.maybe_intervals
  | [], _, _, gp, h => absurd h (List.not_mem_nil gp)
  | (g0, dat) :: rest, t, hnd, gp, hmem => by
    rw [List.map_cons] at hnd
    have hnd' := List.nodup_cons.mp hnd
    rcases List.mem_cons.mp hmem with rfl | hmem2
    · obtain ⟨st, hst, hh⟩ := detectGroup_hash_state slot t d g0 dat now
      refine ⟨st, ?_, hh⟩
      simp only [detectPhase]
      rw [detectPhase_frame slot d now rest _ g0 ?_]
      · exact hst
      · intro q hq hq0
        exact hnd'.1 (hq0 ▸ List.mem_map.mpr ⟨q, hq, rfl⟩)
    · simp only [detectPhase]
      exact detectPhase_mem slot d now rest _ hnd'.2 gp hmem2

theorem detectPhase_unchanged (slot : Slot) (d now : String) :
    ∀ (groups : List (String × GroupData)) (t : StateTable),
      (∀ gp ∈ groups, ∃ st : GroupState, t gp.1 = some st ∧
        st.hash = compute_group_hash d gp.2.off_intervals gp.2.on_intervals gp.2.maybe_intervals) →
      detectPhase slot t d now groups = (t, [])
  | [], _, _ => rfl
  | (g0, dat) :: rest, t, h => by
    obtain ⟨st, hst, hh⟩ := h (g0, dat) (List.mem_cons_self _ _)
    simp only [detectPhase, detectGroup_unchanged slot t d g0 dat now st hst hh]
    rw [detectPhase_unchanged slot d now rest t
      (fun gp hgp => h gp (List.mem_cons_of_mem _ hgp))]
    rfl

/-! ## Claim C4: detector idempotence -/

/-- C4: running the detection pass a second time on the same snapshot,
immediately after a first cycle, yields `Unchanged` for every (group,
slot) of the snapshot — the changed-job lists are empty — so the second
cycle enqueues nothing, leaves the queue as it was, emits no logs, and
does not write the store. -/
theorem detector_idempotent (cap : Nat) (db : DB) (q q' : List Job)
    (snap : Snapshot) (now now' : String)
    (hT : ∀ s, snap.today = some s → (s.groups.map Prod.fst).Nodup)
    (hM : ∀ s, snap.tomorrow = some s → (s.groups.map Prod.fst).Nodup) :
    (∀ s, snap.today = some s →
      detectPhase .today (runCycle cap db q snap now).1.group_state
          s.schedule_date now' s.groups =
        ((runCycle cap db q snap now).1.group_state, [])) ∧
    (∀ s, snap.tomorrow = some s →
      detectPhase .tomorrow (runCycle cap db q snap now).1.group_state_tomorrow
          s.schedule_date now' s.groups =
        ((runCycle cap db q snap now).1.group_state_tomorrow, [])) ∧
    runCycle cap (runCycle cap db q snap now).1 q' snap now' =
      ((runCycle cap db q snap now).1, q', []) := by
  have hTodayTable : ∀ s, snap.today = some s →
      (runCycle cap db q snap now).1.group_state =
        (detectPhase .today db.group_state s.schedule_date now s.groups).1 := by
    intro s hs
    simp only [runCycle, hs]
  have hTomTable : ∀ s, snap.tomorrow = some s →
      (runCycle cap db q snap now).1.group_state_tomorrow =
        (detectPhase .tomorrow db.group_state_tomorrow s.schedule_date now s.groups).1 := by
    intro s hs
    simp only [runCycle, hs]
  have hTodayUnch' : ∀ s, snap.today = some s →
      detectPhase .today (detectPhase .today db.group_state s.schedule_date now s.groups).1
          s.schedule_date now' s.groups =
        ((detectPhase .today db.group_state s.schedule_date now s.groups).1, []) := by
    intro s hs
    exact detectPhase_unchanged .today s.schedule_date now' s.groups _
      (fun gp hgp => detectPhase_mem .today s.schedule_date now s.groups
        db.group_state (hT s hs) gp hgp)
  have hTomUnch' : ∀ s, snap.tomorrow = some s →
      detectPhase .tomorrow
          (detectPhase .tomorrow db.group_state_tomorrow s.schedule_date now s.groups).1
          s.schedule_date now' s.groups =
        ((detectPhase .tomorrow db.group_state_tomorrow s.schedule_date now s.groups).1, []) := by
    intro s hs
    exact detectPhase_unchanged .tomorrow s.schedule_date now' s.groups _
      (fun gp hgp => detectPhase_mem .tomorrow s.schedule_date now s.groups
        db.group_state_tomorrow (hM s hs) gp hgp)
  have hTodayUnch : ∀ s, snap.today = some s →
      detectPhase .today (runCycle cap db q snap now).1.group_state
          s.schedule_date now' s.groups =
        ((runCycle cap db q snap now).1.group_state, []) := by
    intro s hs
    rw [hTodayTable s hs]
    exact hTodayUnch' s hs
  have hTomUnch : ∀ s, snap.tomorrow = some s →
      detectPhase .tomorrow (runCycle cap db q snap now).1.group_state_tomorrow
          s.schedule_date now' s.groups =
        ((runCycle cap db q snap now).1.group_state_tomorrow, []) := by
    intro s hs
    rw [hTomTable s hs]
    exact hTomUnch' s hs
  refine ⟨hTodayUnch, hTomUnch, ?_⟩
  show runCycle cap (runCycle cap db q snap now).1 q' snap now' =
    ((runCycle cap db q snap now).1, q', [])
  cases hs : snap.today with
  | none =>
    cases hm : snap.tomorrow with
    | none => simp only [runCycle, hs, hm, enqueueJobs, List.append_nil]
    | some sm =>
      simp only [runCycle, hs, hm, enqueueJobs, hTomUnch' sm hm, List.append_nil,
        List.nil_append]
  | some st =>
    cases hm : snap.tomorrow with
    | none =>
      simp only [runCycle, hs, hm, enqueueJobs, hTodayUnch' st hs, List.append_nil,
        List.nil_append]
    | some sm =>
      simp only [runCycle, hs, hm, enqueueJobs, hTodayUnch' st hs, hTomUnch' sm hm,
        List.append_nil, List.nil_append]

/-- Witness for C4 at a concrete one-group snapshot on an empty store. -/
theorem detector_idempotent_witness :
    runCycle 500
        (runCycle 500 emptyDB []
          ⟨some ⟨"01.01.2025", [("1.1", ⟨["10:00–12:00"], ["00:00–10:00"], []⟩)]⟩, none⟩
          "t1").1 []
        ⟨some ⟨"01.01.2025", [("1.1", ⟨["10:00–12:00"], ["00:00–10:00"], []⟩)]⟩, none⟩ "t2" =
      ((runCycle 500 emptyDB []
          ⟨some ⟨"01.01.2025", [("1.1", ⟨["10:00–12:00"], ["00:00–10:00"], []⟩)]⟩, none⟩
          "t1").1, [], []) :=
  (detector_idempotent 500 emptyDB [] []
      ⟨some ⟨"01.01.2025", [("1.1", ⟨["10:00–12:00"], ["00:00–10:00"], []⟩)]⟩, none⟩ "t1" "t2"
      (fun s hs => by cases hs; decide)
      (fun s hs => Option.noConfusion hs)).2.2

/-! ## Claim C2: the end-to-end today scenario -/

set_option maxRecDepth 1000000 in
/-- C2: scraping group `"1.1"` with raw off-intervals
`["10:00–12:00", "12:00–14:00"]` for today on an empty store enqueues
exactly the one expected job; the store afterwards holds the canonical
form `off = ["10:00–14:00"]`, `on = ["00:00–10:00", "14:00–24:00"]`
(with the hash of that canonical data); re-running detection with the
already-merged input `["10:00–14:00"]` leaves the store, the queue and
the logs unchanged (every group `Unchanged`, no write, no enqueue). -/
theorem endToEnd_today_canonical_then_unchanged :
    c2Run1.2.1 = [c2Job] ∧
    c2Run1.1.group_state "1.1" =
      some ⟨"01.01.2025",
        compute_group_hash "01.01.2025" ["10:00–14:00"] ["00:00–10:00", "14:00–24:00"] [],
        "\x7b\"off\": [\"10:00–14:00\"], \"on\": [\"00:00–10:00\", \"14:00–24:00\"], \"maybe\": []\x7d",
        "t1"⟩ ∧
    runCycle 500 c2Run1.1 [c2Job] c2Snap2 "t2" = (c2Run1.1, [c2Job], []) := by
  have hb : c2Run1.1.group_state "1.1" =
      some ⟨"01.01.2025",
        compute_group_hash "01.01.2025" ["10:00–14:00"] ["00:00–10:00", "14:00–24:00"] [],
        "\x7b\"off\": [\"10:00–14:00\"], \"on\": [\"00:00–10:00\", \"14:00–24:00\"], \"maybe\": []\x7d",
        "t1"⟩ := by
    rfl
  refine ⟨by decide, hb, ?_⟩
  have hdetect : detectGroup .today c2Run1.1.group_state "01.01.2025" "1.1"
      (scrapeGroupData [(600, 840)]) "t2" = (c2Run1.1.group_state, none) :=
    detectGroup_unchanged .today c2Run1.1.group_state "01.01.2025" "1.1"
      (scrapeGroupData [(600, 840)]) "t2" _ hb rfl
  show runCycle 500 c2Run1.1 [c2Job] c2Snap2 "t2" = (c2Run1.1, [c2Job], [])
  simp only [runCycle, c2Snap2, detectPhase, hdetect, enqueueJobs, Option.toList,
    List.nil_append, List.append_nil]

end Lightbot
